import Mathlib

/-!
Verification development for the CaImAn pre-processing module
(ca_source_extraction/pre_processing.py).

The Python source is shallowly embedded: numpy arrays over the reals become
Lean functions or lists over ℝ, the FFT calls become the discrete Fourier
transform written as a finite sum of powers of the primitive root
exp(-2*pi*I/L), and code that raises becomes Except.  Exact real arithmetic
replaces floating point; the one place where IEEE semantics is essential
(log of a zero power value inside the logmexp averaging, which produces -inf
and then exp(-inf) = 0) is modelled on the extended reals EReal.
-/

namespace PreProcessing

open scoped BigOperators

/-- Source nextpow2 (pre_processing.py lines 346-361): the loop
`while avalue > 2 ** exponent: exponent += 1` returns the least exponent
with value <= 2 ^ exponent.  The argument used by axcov is 2*T-1 >= 0, so
the abs in the source is the identity here. -/
def nextpow2 (value : ℕ) : ℕ :=
  Nat.find (show ∃ e, value ≤ 2 ^ e from ⟨value, (Nat.lt_two_pow value).le⟩)

/-- Primitive L-th root of unity exp(-2*pi*I/L) used by numpy's fft
convention: fft(x)[j] = sum_k x[k] * exp(-2*pi*I*j*k/L). -/
noncomputable def wroot (L : ℕ) : ℂ :=
  Complex.exp (-(2 * Real.pi * Complex.I) / L)

/-- Discrete Fourier transform of length L (numpy np.fft.fft semantics,
restricted to the indices that the source reads). -/
noncomputable def dft (L : ℕ) (x : ℕ → ℂ) (j : ℕ) : ℂ :=
  ∑ k in Finset.range L, x k * wroot L ^ (j * k)

/-- Inverse discrete Fourier transform of length L (numpy np.fft.ifft
semantics): ifft(X)[m] = (1/L) * sum_j X[j] * exp(2*pi*I*j*m/L). -/
noncomputable def idft (L : ℕ) (X : ℕ → ℂ) (m : ℕ) : ℂ :=
  (∑ j in Finset.range L, X j * (wroot L)⁻¹ ^ (j * m)) / L

/-- De-meaned, zero-padded pixel trace (source line 334, data - np.mean(data),
zero-extended beyond the trace length as np.fft.fft(data, n) pads). -/
noncomputable def demeaned (data : List ℝ) : ℕ → ℝ := fun k =>
  if k < data.length then data.getD k 0 - data.sum / data.length else 0

/-- FFT length used by axcov (source line 337): 2 ^ nextpow2(2*bins - 1). -/
def axcovL (data : List ℝ) : ℕ :=
  2 ^ nextpow2 (2 * data.length - 1)

/-- Source line 337-338: xcov = ifft(np.square(np.abs(fft(data, L)))). -/
noncomputable def xcovFun (data : List ℝ) : ℕ → ℂ := fun m =>
  idft (axcovL data)
    (fun j => ((Complex.abs (dft (axcovL data) (fun k => (demeaned data k : ℂ)) j) ^ 2 : ℝ) : ℂ))
    m

/-- Source axcov (pre_processing.py lines 319-342).  The body de-means the
data, zero-pads to L = 2 ^ nextpow2(2*T-1), computes ifft(abs(fft(x,L))**2),
concatenates the slices [L-maxlag, L) and [0, maxlag], and returns the real
part after dividing by T.  Note: the source refers to the names fft and ifft
without importing them (only numpy as np is imported), so every call raises
NameError at runtime; following the docstring and the rest of the body, the
intended fft/ifft are numpy.fft.fft / numpy.fft.ifft, embedded here as
dft / idft. -/
noncomputable def axcov (data : List ℝ) (maxlag : ℕ) : List ℝ :=
  (((List.range maxlag).map (fun i => xcovFun data (axcovL data - maxlag + i))) ++
      ((List.range (maxlag + 1)).map (fun i => xcovFun data i))).map
    (fun z => (z / (data.length : ℂ)).re)

/-- Numpy np.arange(start, stop, step) over exact rationals: the entries
start + k*step for 0 <= k < ceil((stop-start)/step). -/
def arange (start stop step : ℚ) : List ℚ :=
  (List.range (⌈(stop - start) / step⌉.toNat)).map (fun (k : ℕ) => start + (k : ℚ) * step)

/-- Source frequency grid (pre_processing.py line 119):
ff = np.arange(0, 0.5 + 1/T, 1/T). -/
def ff (T : ℕ) : List ℚ :=
  arange 0 (1 / 2 + 1 / (T : ℚ)) (1 / (T : ℚ))

/-- Source line 120: ind1 = ff > noise_range[0]. -/
def ind1 (T : ℕ) (lo : ℚ) : List Bool :=
  (ff T).map (fun f => decide (lo < f))

/-- Source line 121: ind2 = ff <= noise_range[1]. -/
def ind2 (T : ℕ) (hi : ℚ) : List Bool :=
  (ff T).map (fun f => decide (f ≤ hi))

/-- Source line 122: ind = np.logical_and(ind1, ind2). -/
def indMask (T : ℕ) (lo hi : ℚ) : List Bool :=
  List.zipWith (fun a b => a && b) (ind1 T lo) (ind2 T hi)

/-- Length of np.fft.rfft output on a length-T axis: floor(T/2) + 1. -/
def rfftLen (T : ℕ) : ℕ := T / 2 + 1

/-- Indices selected by the boolean mask ind when it is applied to the last
axis of psdx (source line 127, psdx[..., ind]). -/
def selectedIdx (T : ℕ) (lo hi : ℚ) : List ℕ :=
  (List.range (indMask T lo hi).length).filter (fun k => (indMask T lo hi).getD k false)

/-- One-sided DFT of one pixel trace (source line 124, np.fft.rfft(Y, axis=-1)
read at bin j; rfft bins agree with the full DFT bins for j <= T/2). -/
noncomputable def rfftRow (T : ℕ) (y : ℕ → ℝ) (j : ℕ) : ℂ :=
  dft T (fun k => (y k : ℂ)) j

/-- Power spectral density of one pixel at bin k (source lines 125-126):
psdx = (1/T)*abs(xdft)**2 followed by psdx[..., 1:] *= 2. -/
noncomputable def psdRow (T : ℕ) (y : ℕ → ℝ) (k : ℕ) : ℝ :=
  (if k = 0 then 1 else 2) * (1 / (T : ℝ) * Complex.abs (rfftRow T y k) ^ 2)

/-- IEEE-faithful log for the nonnegative power values fed to mean_psd:
np.log(0) = -inf (bottom of EReal), np.log(x) = log x for x > 0.  Negative
input cannot occur for power spectra; it is mapped to bottom as well. -/
noncomputable def logE (x : ℝ) : EReal :=
  if x ≤ 0 then ⊥ else ((Real.log x : ℝ) : EReal)

/-- IEEE-faithful exp on extended reals: np.exp(-inf) = 0. The top element
is unreachable for inputs coming from logE means. -/
noncomputable def expE (x : EReal) : ℝ :=
  if x = ⊥ then 0 else Real.exp x.toReal

/-- Mean of a list of extended reals, as sum * (1/length); np.mean of a
vector containing -inf is -inf, matching EReal since the scale factor is a
positive real for nonempty lists. -/
noncomputable def emean (l : List EReal) : EReal :=
  l.sum * (((l.length : ℝ)⁻¹ : ℝ) : EReal)

/-- Real-valued merge sort used to model np.median's internal sort. -/
noncomputable def sortR (l : List ℝ) : List ℝ :=
  l.mergeSort (fun a b => a ≤ b)

/-- Numpy np.median: sort, take the middle element for odd length, the
average of the two middle elements for even length. -/
noncomputable def npMedian (l : List ℝ) : ℝ :=
  let s := sortR l
  if l.length % 2 = 1 then s.getD (l.length / 2) 0
  else (s.getD (l.length / 2 - 1) 0 + s.getD (l.length / 2) 0) / 2

/-- Source mean_psd (pre_processing.py lines 232-257): string dispatch on
the averaging method; anything other than "mean" and "median" falls through
to the logmexp branch sqrt(exp(mean(log(y/2)))). -/
noncomputable def mean_psd (y : List ℝ) (method : String) : ℝ :=
  if method = "mean" then Real.sqrt ((y.map (fun v => v / 2)).sum / y.length)
  else if method = "median" then Real.sqrt (npMedian (y.map (fun v => v / 2)))
  else Real.sqrt (expE (emean (y.map (fun v => logE (v / 2)))))

/-- Source get_noise_fft (pre_processing.py lines 98-135), 2D branch, for a
movie with N pixel rows and T time samples given as a function Y.  The
boolean mask ind is built over the grid ff while psdx has rfftLen T bins;
numpy raises IndexError when the mask length differs from the axis length
(this happens exactly when T is odd), embedded as the error branch.  On
success the per-pixel noise is mean_psd over the selected psd bins. -/
noncomputable def get_noise_fft (N T : ℕ) (Y : ℕ → ℕ → ℝ) (lo hi : ℚ)
    (method : String) : Except String (ℕ → ℝ) :=
  if (indMask T lo hi).length = rfftLen T then
    Except.ok (fun i => mean_psd ((selectedIdx T lo hi).map (fun k => psdRow T (Y i) k)) method)
  else Except.error "boolean index did not match indexed array"

/-- Source pixel_groups (pre_processing.py line 173):
range(0, Y.shape[0] - n_pixels_per_process + 1, n_pixels_per_process),
with Python range semantics (empty when the stop bound is <= 0). -/
def pixel_groups (N g : ℕ) : List ℕ :=
  if g ≤ N then (List.range ((N - g) / g + 1)).map (fun k => k * g) else []

/-- Source fft_psd_parallel (pre_processing.py lines 204-228): compute
get_noise_fft on the block of num rows starting at row i and write the
results into the shared buffer at indices [i, i+num). -/
noncomputable def fft_psd_parallel (T : ℕ) (Y : ℕ → ℕ → ℝ) (buf : ℕ → ℝ)
    (i num : ℕ) (lo hi : ℚ) (method : String) : Except String (ℕ → ℝ) :=
  match get_noise_fft num T (fun r => Y (i + r)) lo hi method with
  | Except.error e => Except.error e
  | Except.ok res =>
      Except.ok (fun idx => if i ≤ idx ∧ idx < i + num then res (idx - i) else buf idx)

/-- Sequential semantics of the joblib Parallel dispatch loop (source lines
176-177): the worker writes target pairwise disjoint index ranges (see
coveredIndices below), so the concurrent execution is equivalent to folding
the block writes in order over the shared buffer. -/
noncomputable def applyBlocks (T : ℕ) (Y : ℕ → ℕ → ℝ) (g : ℕ) (lo hi : ℚ)
    (method : String) : List ℕ → (ℕ → ℝ) → Except String (ℕ → ℝ)
  | [], buf => Except.ok buf
  | i :: rest, buf =>
      match fft_psd_parallel T Y buf i g lo hi method with
      | Except.error e => Except.error e
      | Except.ok buf2 => applyBlocks T Y g lo hi method rest buf2

/-- Source get_noise_fft_parallel (pre_processing.py lines 138-201): the
dispatched blocks receive the caller's noise_range and noise_method, then,
when N mod g is nonzero, the remaining pixels are processed by the call on
line 186, which passes NO kwargs, so the remainder block runs with the
get_noise_fft defaults noise_range = [0.25, 0.5], noise_method = "logmexp".
The shared float32 memmap buffer is modelled as a zero-initialised real
buffer. -/
noncomputable def get_noise_fft_parallel (N T : ℕ) (Y : ℕ → ℕ → ℝ) (g : ℕ)
    (lo hi : ℚ) (method : String) : Except String (ℕ → ℝ) :=
  match applyBlocks T Y g lo hi method (pixel_groups N g) (fun _ => 0) with
  | Except.error e => Except.error e
  | Except.ok buf =>
      if 0 < N % g then
        fft_psd_parallel T Y buf (N - N % g) (N % g) (1 / 4) (1 / 2) "logmexp"
      else Except.ok buf

/-- Index range [i, i+num) written by fft_psd_parallel (source line 225,
idxs = range(i, i + num_pixels)). -/
def blockIdxs (i num : ℕ) : List ℕ :=
  (List.range num).map (fun r => i + r)

/-- All buffer indices written by the orchestrator, in dispatch order: the
blocks of size g starting at the pixel_groups offsets, followed by the
remainder block of size N mod g when that is nonzero (source lines 173,
182-186). -/
def coveredIndices (N g : ℕ) : List ℕ :=
  ((pixel_groups N g).flatMap (fun i => blockIdxs i g)) ++
    (if 0 < N % g then blockIdxs (N - N % g) (N % g) else [])

/-- Pixel trace i of the movie as a list of its T samples. -/
noncomputable def rowList (Y : ℕ → ℕ → ℝ) (T i : ℕ) : List ℝ :=
  (List.range T).map (Y i)

/-- Model of np.linalg.pinv: for a design matrix with full column rank the
Moore-Penrose pseudo-inverse equals (Aᵀ A)⁻¹ Aᵀ; Matrix.inv supplies the
junk value 0 on the singular locus, where np would fall back to SVD.  Only
the shape of the product pinv(A) · b is consumed by the claims below. -/
noncomputable def pinv {m n : ℕ} (A : Matrix (Fin m) (Fin n) ℝ) :
    Matrix (Fin n) (Fin m) ℝ :=
  (A.transpose * A)⁻¹ * A.transpose

/-- Source estimate_time_constant (pre_processing.py lines 262-317).
Raises when p is None (line 283-284); otherwise computes the autocovariance
of every selected pixel at maxlag = lags + p, builds the per-pixel Toeplitz
blocks (with the reversed causal half on the noise-free path, and the
sn[i]^2 eye correction on the noise-inclusive path), stacks them into A and
the target vector gv, and returns pinv(A) · gv.  Row rc of the stacked
system decomposes as rc = i*lags + r, i.e. i = rc / lags, r = rc % lags,
matching A[i*lags + np.arange(lags), :] in the source.  The Toeplitz entry
toeplitz(c, r)[a, b] is c[a-b] for a >= b and r[b-a] otherwise, which for
the generating slices used here is index (p-1) + a - b into the reversed
autocovariance (noise-free) and index lags + |a-b| into the raw one
(noise-inclusive). -/
noncomputable def estimate_time_constant (N T : ℕ) (Y : ℕ → ℕ → ℝ) (sn : ℕ → ℝ)
    (p : Option ℕ) (lags : ℕ) (include_noise : Bool) (pixels : Option (List ℕ)) :
    Except String (List ℝ) :=
  match p with
  | none => Except.error "You need to define p"
  | some p0 =>
    let px := pixels.getD (List.range N)
    let npx := px.length
    let lagsP := lags + p0
    let XC : ℕ → ℕ → ℝ := fun j k => (axcov (rowList Y T (px.getD j 0)) lagsP).getD k 0
    if include_noise then
      let A : Matrix (Fin (npx * lagsP)) (Fin p0) ℝ := Matrix.of fun rc c =>
        XC (rc.val / lagsP) (lagsP + ((rc.val % lagsP) - c.val) + (c.val - (rc.val % lagsP)))
          - (if rc.val % lagsP = c.val then sn (rc.val / lagsP) ^ 2 else 0)
      let gv : Fin (npx * lagsP) → ℝ := fun rc =>
        XC (rc.val / lagsP) (lagsP + 1 + rc.val % lagsP)
      Except.ok (List.ofFn ((pinv A).mulVec gv))
    else
      let XCr : ℕ → ℕ → ℝ := fun j k => XC j (lagsP - 1 - k)
      let A : Matrix (Fin (npx * lags)) (Fin p0) ℝ := Matrix.of fun rc c =>
        XCr (rc.val / lags) ((p0 - 1 + rc.val % lags) - c.val)
      let gv : Fin (npx * lags) → ℝ := fun rc =>
        XCr (rc.val / lags) (p0 + rc.val % lags)
      Except.ok (List.ofFn ((pinv A).mulVec gv))

/-- Concrete pixel trace [2, 1, 0, 0] used to exhibit the defect of the
remainder call of get_noise_fft_parallel (source line 186). -/
noncomputable def rowY : ℕ → ℝ := fun k => if k = 0 then 2 else if k = 1 then 1 else 0

/-- Concrete three-pixel movie whose rows are all rowY. -/
noncomputable def Y3 : ℕ → ℕ → ℝ := fun _ k => rowY k

/-! Root-of-unity facts and the finite Wiener-Khinchin identity. -/

lemma wroot_ne_zero (L : ℕ) : wroot L ≠ 0 :=
  Complex.exp_ne_zero _

lemma two_pi_I_ne_zero : (2 * (Real.pi : ℂ) * Complex.I) ≠ 0 := by
  have h1 : ((Real.pi : ℂ)) ≠ 0 := by
    exact_mod_cast Real.pi_ne_zero
  simp [h1, Complex.I_ne_zero]

lemma wroot_pow_self (L : ℕ) (hL : 0 < L) : wroot L ^ L = 1 := by
  have hLC : (L : ℂ) ≠ 0 := Nat.cast_ne_zero.2 hL.ne'
  rw [wroot, ← Complex.exp_nat_mul,
    show (L : ℂ) * (-(2 * Real.pi * Complex.I) / L) = -(2 * Real.pi * Complex.I) by
      field_simp; ring,
    Complex.exp_neg, Complex.exp_two_pi_mul_I, inv_one]

lemma wroot_zpow_eq_one_iff (L : ℕ) (hL : 0 < L) (d : ℤ) :
    wroot L ^ d = 1 ↔ (L : ℤ) ∣ d := by
  have hLC : (L : ℂ) ≠ 0 := Nat.cast_ne_zero.2 hL.ne'
  rw [wroot, ← Complex.exp_int_mul, Complex.exp_eq_one_iff]
  constructor
  · rintro ⟨n, hn⟩
    refine ⟨-n, ?_⟩
    have h2 : (d : ℂ) * -(2 * Real.pi * Complex.I) = n * (2 * Real.pi * Complex.I) * L := by
      field_simp at hn
      linear_combination hn
    have h3 : (-(d : ℂ)) * (2 * Real.pi * Complex.I) =
        ((n : ℂ) * L) * (2 * Real.pi * Complex.I) := by
      linear_combination h2
    have h4 : (-(d : ℂ)) = (n : ℂ) * L := mul_right_cancel₀ two_pi_I_ne_zero h3
    have h5 : (d : ℂ) = (L : ℂ) * (-n) := by linear_combination -h4
    exact_mod_cast h5
  · rintro ⟨e, he⟩
    refine ⟨-e, ?_⟩
    subst he
    push_cast
    field_simp
    ring

lemma wroot_zpow_pow_L (L : ℕ) (hL : 0 < L) (d : ℤ) :
    (wroot L ^ d) ^ L = 1 := by
  rw [← zpow_natCast (wroot L ^ d) L, ← zpow_mul, mul_comm, zpow_mul, zpow_natCast,
    wroot_pow_self L hL, one_zpow]

/-- Orthogonality of the discrete characters: the geometric sum of the d-th
powers of the primitive L-th root vanishes unless L divides d. -/
lemma wroot_orth (L : ℕ) (hL : 0 < L) (d : ℤ) :
    (∑ j in Finset.range L, wroot L ^ ((j : ℤ) * d)) =
      if (L : ℤ) ∣ d then (L : ℂ) else 0 := by
  by_cases hdvd : (L : ℤ) ∣ d
  · rw [if_pos hdvd]
    have h1 : ∀ j ∈ Finset.range L, wroot L ^ ((j : ℤ) * d) = 1 := by
      intro j _
      rw [mul_comm, zpow_mul, (wroot_zpow_eq_one_iff L hL d).2 hdvd, one_zpow]
    rw [Finset.sum_congr rfl h1]
    simp
  · rw [if_neg hdvd]
    have hz : wroot L ^ (d : ℤ) ≠ 1 := fun h => hdvd ((wroot_zpow_eq_one_iff L hL d).1 h)
    have h1 : ∀ j ∈ Finset.range L, wroot L ^ ((j : ℤ) * d) = (wroot L ^ (d : ℤ)) ^ j := by
      intro j _
      rw [mul_comm, zpow_mul, zpow_natCast]
    rw [Finset.sum_congr rfl h1, geom_sum_eq hz, wroot_zpow_pow_L L hL]
    simp

lemma wroot_conj (L : ℕ) : (starRingEnd ℂ) (wroot L) = (wroot L)⁻¹ := by
  rw [wroot, ← Complex.exp_conj, ← Complex.exp_neg]
  congr 1
  simp only [map_div₀, map_neg, map_mul, Complex.conj_I, Complex.conj_ofReal, map_ofNat,
    Complex.conj_natCast]
  ring

lemma nat_pow_to_zpow (w : ℂ) (j a : ℕ) : w ^ (j * a) = w ^ ((j : ℤ) * a) := by
  rw [show ((j : ℤ) * a) = ((j * a : ℕ) : ℤ) by push_cast; ring, zpow_natCast]

lemma inv_nat_pow_to_zpow (w : ℂ) (j a : ℕ) : w⁻¹ ^ (j * a) = w ^ (-((j : ℤ) * a)) := by
  rw [inv_pow, nat_pow_to_zpow w j a, ← zpow_neg]

lemma conj_dft_real (L : ℕ) (x : ℕ → ℝ) (j : ℕ) :
    (starRingEnd ℂ) (dft L (fun k => (x k : ℂ)) j) =
      ∑ b in Finset.range L, (x b : ℂ) * wroot L ^ (-((j : ℤ) * b)) := by
  rw [dft, map_sum]
  refine Finset.sum_congr rfl fun b _ => ?_
  rw [map_mul, map_pow, Complex.conj_ofReal, wroot_conj, inv_nat_pow_to_zpow]

/-- Membership form of the index collapse: for a < L, the divisibility
condition L ∣ (a - b - m) picks out exactly a = (b + m) % L. -/
lemma dvd_sub_iff_eq_mod (L a b m : ℕ) (hL : 0 < L) (ha : a < L) :
    (L : ℤ) ∣ ((a : ℤ) - b - m) ↔ a = (b + m) % L := by
  constructor
  · intro hdvd
    have h1 : ((b + m : ℕ) : ℤ) ≡ (a : ℤ) [ZMOD (L : ℕ)] := by
      rw [Int.modEq_iff_dvd]
      push_cast
      convert hdvd using 1
      ring
    have h2 : ((b + m : ℕ) : ℤ) % L = (a : ℤ) % L := h1
    have h3 : (a : ℤ) % L = a := Int.emod_eq_of_lt (by positivity) (by exact_mod_cast ha)
    have h4 : ((b + m : ℕ) : ℤ) % L = (((b + m) % L : ℕ) : ℤ) := by
      push_cast
      rfl
    omega
  · intro h
    subst h
    refine ⟨-(((b + m) / L : ℕ) : ℤ), ?_⟩
    have hq : ((b + m) % L + L * ((b + m) / L) : ℕ) = b + m := Nat.mod_add_div _ _
    have hq2 : (((b + m) % L : ℕ) : ℤ) + L * (((b + m) / L : ℕ) : ℤ) = (b : ℤ) + m := by
      exact_mod_cast hq
    linarith

/-- Finite Wiener-Khinchin identity: the inverse DFT of the squared modulus
of the DFT of a real sequence is its circular autocorrelation. -/
lemma idft_abs_sq_dft (L : ℕ) (hL : 0 < L) (x : ℕ → ℝ) (m : ℕ) :
    idft L (fun j => ((Complex.abs (dft L (fun k => (x k : ℂ)) j) ^ 2 : ℝ) : ℂ)) m =
      ((∑ b in Finset.range L, x ((b + m) % L) * x b : ℝ) : ℂ) := by
  have hw : wroot L ≠ 0 := wroot_ne_zero L
  have hLC : (L : ℂ) ≠ 0 := Nat.cast_ne_zero.2 hL.ne'
  have hpsd : ∀ j, ((Complex.abs (dft L (fun k => (x k : ℂ)) j) ^ 2 : ℝ) : ℂ) =
      (∑ a in Finset.range L, (x a : ℂ) * wroot L ^ ((j : ℤ) * a)) *
        (∑ b in Finset.range L, (x b : ℂ) * wroot L ^ (-((j : ℤ) * b))) := by
    intro j
    rw [Complex.sq_abs, ← Complex.mul_conj, conj_dft_real, dft]
    rw [Finset.sum_congr rfl fun a _ => by rw [nat_pow_to_zpow (wroot L) j a]]
  rw [idft]
  have hterm : ∀ j ∈ Finset.range L,
      ((fun j => ((Complex.abs (dft L (fun k => (x k : ℂ)) j) ^ 2 : ℝ) : ℂ)) j) *
        (wroot L)⁻¹ ^ (j * m) =
      ∑ a in Finset.range L, ∑ b in Finset.range L,
        (x a : ℂ) * (x b : ℂ) * wroot L ^ ((j : ℤ) * ((a : ℤ) - b - m)) := by
    intro j _
    dsimp only
    rw [hpsd j, inv_nat_pow_to_zpow, Finset.sum_mul_sum, Finset.sum_mul]
    refine Finset.sum_congr rfl fun a _ => ?_
    rw [Finset.sum_mul]
    refine Finset.sum_congr rfl fun b _ => ?_
    rw [show (j : ℤ) * ((a : ℤ) - b - m) = (j : ℤ) * a + -((j : ℤ) * b) + -((j : ℤ) * m) by
      ring, zpow_add₀ hw, zpow_add₀ hw]
    ring
  rw [Finset.sum_congr rfl hterm, Finset.sum_comm]
  have hswap : ∀ a ∈ Finset.range L,
      (∑ j in Finset.range L, ∑ b in Finset.range L,
        (x a : ℂ) * (x b : ℂ) * wroot L ^ ((j : ℤ) * ((a : ℤ) - b - m))) =
      ∑ b in Finset.range L,
        (x a : ℂ) * (x b : ℂ) * (if (L : ℤ) ∣ ((a : ℤ) - b - m) then (L : ℂ) else 0) := by
    intro a _
    rw [Finset.sum_comm]
    refine Finset.sum_congr rfl fun b _ => ?_
    rw [← Finset.mul_sum, wroot_orth L hL]
  rw [Finset.sum_congr rfl hswap]
  rw [Finset.sum_div]
  have hdiv : ∀ a ∈ Finset.range L,
      (∑ b in Finset.range L,
        (x a : ℂ) * (x b : ℂ) * (if (L : ℤ) ∣ ((a : ℤ) - b - m) then (L : ℂ) else 0)) / L =
      ∑ b in Finset.range L,
        (if a = (b + m) % L then (x a : ℂ) * (x b : ℂ) else 0) := by
    intro a ha
    rw [Finset.sum_div]
    refine Finset.sum_congr rfl fun b _ => ?_
    rw [if_congr (dvd_sub_iff_eq_mod L a b m hL (Finset.mem_range.1 ha)) rfl rfl]
    by_cases hc : a = (b + m) % L
    · rw [if_pos hc, if_pos hc, mul_div_assoc, div_self hLC, mul_one]
    · rw [if_neg hc, if_neg hc, mul_zero, zero_div]
  rw [Finset.sum_congr rfl hdiv, Finset.sum_comm]
  have hcollapse : ∀ b ∈ Finset.range L,
      (∑ a in Finset.range L, if a = (b + m) % L then (x a : ℂ) * (x b : ℂ) else 0) =
      (x ((b + m) % L) : ℂ) * (x b : ℂ) := by
    intro b _
    rw [Finset.sum_ite_eq' (Finset.range L) ((b + m) % L) (fun a => (x a : ℂ) * (x b : ℂ)),
      if_pos (Finset.mem_range.2 (Nat.mod_lt _ hL))]
  rw [Finset.sum_congr rfl hcollapse]
  push_cast
  rfl

/-! Autocovariance lemmas. -/

lemma nextpow2_spec (v : ℕ) : v ≤ 2 ^ nextpow2 v :=
  Nat.find_spec (show ∃ e, v ≤ 2 ^ e from ⟨v, (Nat.lt_two_pow v).le⟩)

lemma axcovL_pos (data : List ℝ) : 0 < axcovL data :=
  pow_pos (by norm_num) _

lemma length_le_axcovL (data : List ℝ) (h : 1 ≤ data.length) :
    data.length ≤ axcovL data := by
  have h1 := nextpow2_spec (2 * data.length - 1)
  have h2 : data.length ≤ 2 * data.length - 1 := by omega
  unfold axcovL
  omega

/-- Circular autocorrelation of any real sequence is symmetric under the
shift m -> L - m. -/
lemma circ_shift_symm (L k : ℕ) (x : ℕ → ℝ) (hL : 0 < L) (hk : k ≤ L) :
    (∑ b in Finset.range L, x ((b + (L - k)) % L) * x b) =
      ∑ b in Finset.range L, x ((b + k) % L) * x b := by
  refine Finset.sum_nbij' (fun b => (b + (L - k)) % L) (fun a => (a + k) % L) ?_ ?_ ?_ ?_ ?_
  · intro a _
    exact Finset.mem_range.2 (Nat.mod_lt _ hL)
  · intro a _
    exact Finset.mem_range.2 (Nat.mod_lt _ hL)
  · intro a ha
    have halt := Finset.mem_range.1 ha
    dsimp only
    rw [Nat.mod_add_mod, show a + (L - k) + k = a + L by omega, Nat.add_mod_right,
      Nat.mod_eq_of_lt halt]
  · intro a ha
    have halt := Finset.mem_range.1 ha
    dsimp only
    rw [Nat.mod_add_mod, show a + k + (L - k) = a + L by omega, Nat.add_mod_right,
      Nat.mod_eq_of_lt halt]
  · intro b hb
    have hblt := Finset.mem_range.1 hb
    have h1 : ((b + (L - k)) % L + k) % L = b := by
      rw [Nat.mod_add_mod, show b + (L - k) + k = b + L by omega, Nat.add_mod_right,
        Nat.mod_eq_of_lt hblt]
    rw [h1]
    exact mul_comm _ _

lemma xcovFun_eq (data : List ℝ) (m : ℕ) :
    xcovFun data m = ((∑ b in Finset.range (axcovL data),
      demeaned data ((b + m) % axcovL data) * demeaned data b : ℝ) : ℂ) :=
  idft_abs_sq_dft (axcovL data) (axcovL_pos data) (demeaned data) m

lemma re_ofReal_div_natCast (r : ℝ) (T : ℕ) : ((r : ℂ) / (T : ℂ)).re = r / T := by
  rw [show ((T : ℕ) : ℂ) = ((T : ℝ) : ℂ) by push_cast; rfl, ← Complex.ofReal_div,
    Complex.ofReal_re]

lemma getD_map_range (n k : ℕ) (f : ℕ → ℝ) (hk : k < n) :
    ((List.range n).map f).getD k 0 = f k := by
  rw [List.getD_eq_getElem _ _ (by simpa using hk), List.getElem_map, List.getElem_range]

lemma axcov_length (data : List ℝ) (maxlag : ℕ) :
    (axcov data maxlag).length = 2 * maxlag + 1 := by
  simp [axcov]
  omega

lemma axcov_getD_nonneg_lag (data : List ℝ) (maxlag k : ℕ) (hk : k ≤ maxlag) :
    (axcov data maxlag).getD (maxlag + k) 0 =
      ((xcovFun data k) / (data.length : ℂ)).re := by
  rw [axcov, List.map_append, List.getD_append_right _ _ _ _ (by simp), List.map_map,
    List.map_map]
  simp only [List.length_map, List.length_range]
  rw [Nat.add_sub_cancel_left, getD_map_range _ _ _ (by omega)]
  dsimp only [Function.comp]

lemma axcov_getD_neg_lag (data : List ℝ) (maxlag k : ℕ) (hk1 : 1 ≤ k) (hk : k ≤ maxlag)
    (hml : maxlag ≤ axcovL data) :
    (axcov data maxlag).getD (maxlag - k) 0 =
      ((xcovFun data (axcovL data - k)) / (data.length : ℂ)).re := by
  rw [axcov, List.map_append, List.getD_append _ _ _ _ (by simp; omega), List.map_map]
  rw [getD_map_range _ _ _ (by omega)]
  dsimp only [Function.comp]
  have heq : axcovL data - maxlag + (maxlag - k) = axcovL data - k := by omega
  rw [heq]

/-- Claim C6 statement: the zero-lag entry of the autocovariance is the
sum of squared deviations from the mean, divided by the trace length. -/
theorem axcov_zero_lag_variance (data : List ℝ) (maxlag : ℕ) (h : maxlag < data.length) :
    (axcov data maxlag).getD maxlag 0 =
      (∑ k in Finset.range data.length,
        (data.getD k 0 - data.sum / data.length) ^ 2) / data.length := by
  have hT1 : 1 ≤ data.length := by omega
  have hTL : data.length ≤ axcovL data := length_le_axcovL data hT1
  have h0 := axcov_getD_nonneg_lag data maxlag 0 (Nat.zero_le _)
  rw [Nat.add_zero] at h0
  rw [h0, xcovFun_eq, re_ofReal_div_natCast]
  congr 1
  have hstep1 : (∑ b in Finset.range (axcovL data),
      demeaned data ((b + 0) % axcovL data) * demeaned data b) =
      ∑ b in Finset.range (axcovL data), demeaned data b ^ 2 := by
    refine Finset.sum_congr rfl fun b hb => ?_
    rw [Nat.add_zero, Nat.mod_eq_of_lt (Finset.mem_range.1 hb), sq]
  rw [hstep1]
  rw [← Finset.sum_subset (Finset.range_subset.2 hTL) (fun b _ hb => ?_)]
  · refine Finset.sum_congr rfl fun b hb => ?_
    simp only [demeaned]
    rw [if_pos (Finset.mem_range.1 hb)]
  · simp only [demeaned]
    rw [if_neg (by simpa using hb)]
    ring

/-- Claim C7 statement: the autocovariance has length 2*maxlag + 1 and is
symmetric about its middle entry. -/
theorem axcov_symmetric (data : List ℝ) (maxlag : ℕ) (h : maxlag < data.length) :
    (axcov data maxlag).length = 2 * maxlag + 1 ∧
      ∀ k, k ≤ maxlag →
        (axcov data maxlag).getD (maxlag - k) 0 = (axcov data maxlag).getD (maxlag + k) 0 := by
  have hT1 : 1 ≤ data.length := by omega
  have hml : maxlag ≤ axcovL data := le_trans (by omega) (length_le_axcovL data hT1)
  refine ⟨axcov_length data maxlag, fun k hk => ?_⟩
  rcases Nat.eq_zero_or_pos k with hk0 | hk1
  · subst hk0
    rfl
  · rw [axcov_getD_neg_lag data maxlag k hk1 hk hml, axcov_getD_nonneg_lag data maxlag k hk,
      xcovFun_eq, xcovFun_eq,
      circ_shift_symm (axcovL data) k (demeaned data) (axcovL_pos data) (le_trans hk hml)]

/-! Frequency grid and selection-mask lemmas. -/

lemma getD_map_of_lt {α β : Type*} (l : List α) (f : α → β) (d : β) (d' : α) (k : ℕ)
    (hk : k < l.length) : (l.map f).getD k d = f (l.getD k d') := by
  rw [List.getD_eq_getElem _ _ (by simpa using hk), List.getElem_map,
    List.getD_eq_getElem _ _ hk]

lemma getD_map_range_of_lt {α : Type*} (n k : ℕ) (d : α) (f : ℕ → α) (hk : k < n) :
    ((List.range n).map f).getD k d = f k := by
  rw [List.getD_eq_getElem _ _ (by simpa using hk), List.getElem_map, List.getElem_range]

lemma ceil_nat_div_two (T : ℕ) : ⌈(T : ℚ) / 2⌉ = (((T + 1) / 2 : ℕ) : ℤ) := by
  rcases Nat.even_or_odd T with ⟨s, hs⟩ | ⟨s, hs⟩
  · subst hs
    rw [show ((s + s : ℕ) : ℚ) / 2 = ((s : ℕ) : ℚ) by push_cast; ring, Int.ceil_natCast,
      show (s + s + 1) / 2 = s by omega]
  · subst hs
    rw [show ((2 * s + 1 : ℕ) : ℚ) / 2 = 1 / 2 + ((s : ℤ) : ℚ) by push_cast; ring,
      Int.ceil_add_int, show (2 * s + 1 + 1) / 2 = s + 1 by omega,
      show ⌈(1 / 2 : ℚ)⌉ = 1 by norm_num [Int.ceil_eq_iff]]
    push_cast
    ring

lemma ff_length (T : ℕ) (hT : 1 ≤ T) : (ff T).length = (T + 3) / 2 := by
  have hTQ : (T : ℚ) ≠ 0 := Nat.cast_ne_zero.2 (by omega)
  have harg : ((1 / 2 + 1 / (T : ℚ)) - 0) / (1 / (T : ℚ)) = (T : ℚ) / 2 + 1 := by
    field_simp
    ring
  have hceil : ⌈((1 / 2 + 1 / (T : ℚ)) - 0) / (1 / (T : ℚ))⌉ = (((T + 1) / 2 : ℕ) : ℤ) + 1 := by
    rw [harg, show ((T : ℚ) / 2 + 1) = (T : ℚ) / 2 + (1 : ℤ) by push_cast; ring,
      Int.ceil_add_int, ceil_nat_div_two]
  rw [ff, arange, List.length_map, List.length_range, hceil]
  omega

lemma ff_getD (T k : ℕ) (hk : k < (ff T).length) : (ff T).getD k 0 = (k : ℚ) / T := by
  rw [ff, arange] at hk ⊢
  rw [List.getD_eq_getElem _ _ hk, List.getElem_map, List.getElem_range]
  rw [zero_add]
  rw [one_div, mul_comm, inv_mul_eq_div]

lemma zipWith_and_map {α : Type*} (l : List α) (f g : α → Bool) :
    List.zipWith (fun a b => a && b) (l.map f) (l.map g) = l.map (fun x => f x && g x) := by
  induction l with
  | nil => rfl
  | cons x xs ih => simp [ih]

lemma indMask_eq (T : ℕ) (lo hi : ℚ) :
    indMask T lo hi = (ff T).map (fun f => decide (lo < f) && decide (f ≤ hi)) :=
  zipWith_and_map (ff T) _ _

lemma indMask_length (T : ℕ) (lo hi : ℚ) : (indMask T lo hi).length = (ff T).length := by
  rw [indMask_eq, List.length_map]

lemma indMask_getD (T : ℕ) (lo hi : ℚ) (k : ℕ) (hk : k < (ff T).length) :
    (indMask T lo hi).getD k false =
      (decide (lo < (ff T).getD k 0) && decide ((ff T).getD k 0 ≤ hi)) := by
  rw [indMask_eq, getD_map_of_lt (ff T) _ false 0 k hk]

lemma mem_selectedIdx (T : ℕ) (lo hi : ℚ) (j : ℕ) :
    j ∈ selectedIdx T lo hi ↔ j < (ff T).length ∧ lo < (j : ℚ) / T ∧ (j : ℚ) / T ≤ hi := by
  rw [selectedIdx, List.mem_filter, List.mem_range, indMask_length]
  constructor
  · rintro ⟨hj, hmask⟩
    rw [indMask_getD T lo hi j hj, ff_getD T j hj] at hmask
    simp only [Bool.and_eq_true, decide_eq_true_eq] at hmask
    exact ⟨hj, hmask.1, hmask.2⟩
  · rintro ⟨hj, h1, h2⟩
    refine ⟨hj, ?_⟩
    rw [indMask_getD T lo hi j hj, ff_getD T j hj]
    simp only [Bool.and_eq_true, decide_eq_true_eq]
    exact ⟨h1, h2⟩

lemma selectedIdx_eq_filter (T : ℕ) (lo hi : ℚ) :
    selectedIdx T lo hi = (List.range ((ff T).length)).filter
      (fun (k : ℕ) => decide (lo < (k : ℚ) / T) && decide ((k : ℚ) / T ≤ hi)) := by
  rw [selectedIdx, indMask_length]
  refine List.filter_congr fun k hk => ?_
  rw [indMask_getD T lo hi k (List.mem_range.1 hk), ff_getD T k (List.mem_range.1 hk)]

/-! Orchestrator block-coverage lemmas. -/

lemma flatMap_blocks (q g : ℕ) :
    ((List.range q).map (fun k => k * g)).flatMap (fun i => blockIdxs i g) =
      List.range (q * g) := by
  induction q with
  | zero => simp
  | succ n ih =>
    rw [List.range_succ, List.map_append, List.flatMap_append, ih]
    simp only [List.map_cons, List.map_nil, List.flatMap_cons, List.flatMap_nil,
      List.append_nil, blockIdxs]
    rw [← List.range_add]
    congr 1
    ring

lemma div_sub_self_div (N g : ℕ) (hg : 1 ≤ g) (h : g ≤ N) : (N - g) / g + 1 = N / g := by
  have h1 : 1 ≤ N / g := (Nat.one_le_div_iff (by omega)).2 h
  obtain ⟨q1, hq1⟩ : ∃ q1, N / g = q1 + 1 := ⟨N / g - 1, by omega⟩
  have h2 := Nat.div_add_mod N g
  rw [hq1, Nat.mul_succ] at h2
  have h4 : N - g = N % g + g * q1 := by omega
  rw [h4, Nat.add_mul_div_left _ _ (by omega : 0 < g),
    Nat.div_eq_of_lt (Nat.mod_lt _ (by omega))]
  omega

/-- Claim C2 statement: the index blocks dispatched by the parallel
orchestrator (the pixel_groups starts with block size g, plus the trailing
remainder block of size N mod g when nonzero) cover [0, N) in order and
without overlap: their concatenation is exactly the list 0, 1, ..., N-1,
so each buffer entry is written exactly once. -/
theorem pixel_blocks_cover (N g : ℕ) (hg : 1 ≤ g) :
    coveredIndices N g = List.range N ∧
      ∀ idx, idx < N → (coveredIndices N g).count idx = 1 := by
  have hmain : coveredIndices N g = List.range N := by
    by_cases h : g ≤ N
    · rw [coveredIndices, pixel_groups, if_pos h, flatMap_blocks, div_sub_self_div N g hg h]
      have hqg : N / g * g = N - N % g := by
        have h2 : N / g * g + N % g = N := by
          rw [mul_comm]
          exact Nat.div_add_mod N g
        omega
      rw [hqg]
      by_cases hr : 0 < N % g
      · rw [if_pos hr, blockIdxs, ← List.range_add]
        congr 1
        have := Nat.mod_le N g
        omega
      · rw [if_neg hr, List.append_nil]
        congr 1
        omega
    · rw [coveredIndices, pixel_groups, if_neg h]
      push_neg at h
      have hmod : N % g = N := Nat.mod_eq_of_lt h
      by_cases hN : 0 < N
      · rw [hmod, if_pos hN, blockIdxs]
        simp
      · rw [hmod, if_neg hN]
        have hN0 : N = 0 := by omega
        subst hN0
        rfl
  refine ⟨hmain, fun idx hidx => ?_⟩
  rw [hmain]
  exact List.count_eq_one_of_mem (List.nodup_range N) (List.mem_range.2 hidx)

/-! Spectral averager lemmas. -/

lemma sum_replicate_bot (n : ℕ) (hn : 1 ≤ n) : (List.replicate n (⊥ : EReal)).sum = ⊥ := by
  obtain ⟨m, rfl⟩ : ∃ m, n = m + 1 := ⟨n - 1, by omega⟩
  rw [List.replicate_succ, List.sum_cons, EReal.bot_add]

lemma emean_replicate_bot (n : ℕ) (hn : 1 ≤ n) : emean (List.replicate n (⊥ : EReal)) = ⊥ := by
  rw [emean, sum_replicate_bot n hn, List.length_replicate]
  refine EReal.bot_mul_coe_of_pos ?_
  have : (0 : ℝ) < n := by exact_mod_cast hn
  positivity

lemma expE_bot : expE ⊥ = 0 := if_pos rfl

lemma expE_coe (r : ℝ) : expE ((r : ℝ) : EReal) = Real.exp r := by
  rw [expE, if_neg (EReal.coe_ne_bot r), EReal.toReal_coe]

lemma logE_zero : logE 0 = ⊥ := if_pos le_rfl

lemma logE_pos (x : ℝ) (hx : 0 < x) : logE x = ((Real.log x : ℝ) : EReal) :=
  if_neg (not_le.2 hx)

lemma sortR_mem (l : List ℝ) (x : ℝ) : x ∈ sortR l ↔ x ∈ l := by
  rw [sortR]
  exact List.mem_mergeSort

lemma sortR_length (l : List ℝ) : (sortR l).length = l.length :=
  List.length_mergeSort l

lemma npMedian_replicate_zero (n : ℕ) (hn : 1 ≤ n) :
    npMedian (List.replicate n (0 : ℝ)) = 0 := by
  have hlen : (sortR (List.replicate n (0 : ℝ))).length = n := by
    rw [sortR_length, List.length_replicate]
  have hmem : ∀ k, k < n → (sortR (List.replicate n (0 : ℝ))).getD k 0 = 0 := by
    intro k hk
    rw [List.getD_eq_getElem _ _ (by rw [hlen]; exact hk)]
    have hx := List.getElem_mem (l := sortR (List.replicate n (0 : ℝ)))
      (n := k) (by rw [hlen]; exact hk)
    rw [sortR_mem] at hx
    exact List.eq_of_mem_replicate hx
  rw [npMedian, List.length_replicate]
  by_cases hodd : n % 2 = 1
  · rw [if_pos hodd]
    exact hmem _ (by omega)
  · rw [if_neg hodd, hmem _ (by omega), hmem _ (by omega)]
    norm_num

lemma mean_psd_replicate_zero (n : ℕ) (hn : 1 ≤ n) (method : String) :
    mean_psd (List.replicate n (0 : ℝ)) method = 0 := by
  have hmap : (List.replicate n (0 : ℝ)).map (fun v => v / 2) = List.replicate n 0 := by
    rw [List.map_replicate]
    norm_num
  rw [mean_psd]
  by_cases h1 : method = "mean"
  · rw [if_pos h1, hmap, List.sum_replicate]
    simp
  · rw [if_neg h1]
    by_cases h2 : method = "median"
    · rw [if_pos h2, hmap, npMedian_replicate_zero n hn, Real.sqrt_zero]
    · rw [if_neg h2]
      have hmap2 : (List.replicate n (0 : ℝ)).map (fun v => logE (v / 2)) =
          List.replicate n ⊥ := by
        rw [List.map_replicate, show (0 : ℝ) / 2 = 0 by norm_num, logE_zero]
      rw [hmap2, emean_replicate_bot n hn, expE_bot, Real.sqrt_zero]

/-! Noise estimator lemmas. -/

lemma ff_rfft_guard (T : ℕ) (hT : 1 ≤ T) (hE : Even T) :
    (indMask T lo hi).length = rfftLen T := by
  rw [indMask_length, ff_length T hT, rfftLen]
  obtain ⟨s, hs⟩ := hE
  omega

lemma dft_const (T : ℕ) (c : ℝ) (j : ℕ) (hT : 0 < T) (hj0 : 0 < j) (hjT : j < T) :
    dft T (fun _ => (c : ℂ)) j = 0 := by
  rw [dft]
  have hconv : ∀ k ∈ Finset.range T,
      (c : ℂ) * wroot T ^ (j * k) = (c : ℂ) * wroot T ^ ((k : ℤ) * (j : ℤ)) := by
    intro k _
    rw [nat_pow_to_zpow, show ((j : ℤ) * k) = ((k : ℤ) * j) from mul_comm _ _]
  rw [Finset.sum_congr rfl hconv, ← Finset.mul_sum, wroot_orth T hT (j : ℤ)]
  have hnd : ¬ ((T : ℤ) ∣ (j : ℤ)) := by
    rw [Int.natCast_dvd_natCast]
    intro hdvd
    exact absurd (Nat.le_of_dvd hj0 hdvd) (by omega)
  rw [if_neg hnd, mul_zero]

lemma psdRow_const (T : ℕ) (c : ℝ) (k : ℕ) (hT : 0 < T) (h0 : 0 < k) (hk : k < T) :
    psdRow T (fun _ => c) k = 0 := by
  rw [psdRow, rfftRow,
    show (fun k0 => (((fun _ : ℕ => c) k0 : ℝ) : ℂ)) = fun _ : ℕ => (c : ℂ) from rfl,
    dft_const T c k hT h0 hk]
  simp

lemma selected_bounds (T j : ℕ) (hT : 1 ≤ T)
    (hj : j ∈ selectedIdx T (1 / 4) (1 / 2)) : 0 < j ∧ j < T := by
  obtain ⟨hlen, h1, h2⟩ := (mem_selectedIdx T _ _ j).1 hj
  have hTQ : (0 : ℚ) < T := by exact_mod_cast (by omega : 0 < T)
  constructor
  · rcases Nat.eq_zero_or_pos j with rfl | hp
    · rw [Nat.cast_zero, zero_div] at h1
      norm_num at h1
    · exact hp
  · rw [div_le_iff hTQ] at h2
    have h3 : (2 * j : ℚ) ≤ T := by linarith
    have h4 : 2 * j ≤ T := by exact_mod_cast h3
    omega

lemma half_bin_selected (T : ℕ) (hT : 2 ≤ T) (hE : Even T) :
    T / 2 ∈ selectedIdx T (1 / 4) (1 / 2) := by
  obtain ⟨s, hs⟩ := hE
  have hs1 : 1 ≤ s := by omega
  refine (mem_selectedIdx T _ _ (T / 2)).2 ⟨?_, ?_, ?_⟩
  · rw [ff_length T (by omega)]
    omega
  · rw [hs, show (s + s) / 2 = s by omega]
    have : ((s : ℚ)) / ((s + s : ℕ) : ℚ) = 1 / 2 := by
      have hsQ : (0 : ℚ) < s := by exact_mod_cast hs1
      push_cast
      field_simp
      ring
    rw [this]
    norm_num
  · rw [hs, show (s + s) / 2 = s by omega]
    have : ((s : ℚ)) / ((s + s : ℕ) : ℚ) = 1 / 2 := by
      have hsQ : (0 : ℚ) < s := by exact_mod_cast hs1
      push_cast
      field_simp
      ring
    rw [this]

/-- Claim C8 statement: a constant movie has zero estimated noise at every
pixel under every averaging method (the default band [0.25, 0.5] selects
only nonzero-frequency bins, whose power vanishes for a constant trace). -/
theorem const_movie_noise_zero (N T : ℕ) (c : ℝ) (method : String)
    (hT : 2 ≤ T) (hE : Even T) :
    get_noise_fft N T (fun _ _ => c) (1 / 4) (1 / 2) method =
      Except.ok (fun _ => (0 : ℝ)) := by
  rw [get_noise_fft, if_pos (ff_rfft_guard T (by omega) hE)]
  congr 1
  funext i
  have hzero : ∀ v ∈ (selectedIdx T (1 / 4) (1 / 2)).map
      (fun k => psdRow T ((fun _ _ => c) i) k), v = 0 := by
    intro v hv
    obtain ⟨j, hj, rfl⟩ := List.mem_map.1 hv
    obtain ⟨h0, hjT⟩ := selected_bounds T j (by omega) hj
    exact psdRow_const T c j (by omega) h0 hjT
  have hrep := List.eq_replicate_of_mem hzero
  rw [hrep, List.length_map]
  have hne : 0 < (selectedIdx T (1 / 4) (1 / 2)).length :=
    List.length_pos.2 (List.ne_nil_of_mem (half_bin_selected T hT hE))
  exact mean_psd_replicate_zero _ (by omega) method

/-- Claim C10 statement: any method string other than "mean" and "median"
falls through to the logmexp branch of mean_psd; no name is ever rejected. -/
theorem mean_psd_unknown_method (y : List ℝ) (method : String)
    (h1 : method ≠ "mean") (h2 : method ≠ "median") :
    mean_psd y method = mean_psd y "logmexp" ∧
      mean_psd y method = Real.sqrt (expE (emean (y.map (fun v => logE (v / 2))))) := by
  rw [mean_psd, if_neg h1, if_neg h2]
  constructor
  · rw [mean_psd, if_neg (by decide), if_neg (by decide)]
  · rfl

/-! Time-constant fitter claim theorems. -/

/-- Claim C5 statement: calling estimate_time_constant with p absent always
raises; the embedded function returns the error of source line 284 before
touching the movie, the noise vector or the autocovariance code. -/
theorem estimate_time_constant_requires_p (N T : ℕ) (Y : ℕ → ℕ → ℝ) (sn : ℕ → ℝ)
    (lags : ℕ) (include_noise : Bool) (pixels : Option (List ℕ)) :
    estimate_time_constant N T Y sn none lags include_noise pixels =
      Except.error "You need to define p" := rfl

/-- Claim C9 statement: on a two-pixel movie with sufficiently long traces,
p = 2, lags = 5, include_noise = false, the fitter returns g = pinv(A) * gv
of length exactly p = 2 and signals no error. -/
theorem estimate_time_constant_two_pixel (T : ℕ) (Y : ℕ → ℕ → ℝ) (sn : ℕ → ℝ)
    (hT : 7 < T) :
    ∃ g, estimate_time_constant 2 T Y sn (some 2) 5 false none = Except.ok g ∧
      g.length = 2 :=
  ⟨_, rfl, List.length_ofFn _⟩

/-! Frequency-grid claim theorems (C3, C4). -/

/-- Claim C3 counterexample: at T = 4 the grid ff has 3 entries, not
T + 1 = 5 as the spec asserts. -/
theorem freq_grid_count_refuted : (ff 4).length = 3 ∧ (ff 4).length ≠ 4 + 1 := by
  have h := ff_length 4 (by norm_num)
  rw [show (4 + 3) / 2 = 3 by norm_num] at h
  exact ⟨h, by omega⟩

/-- Claim C3 amended statement: the grid has floor((T+3)/2) bins (that is
T/2 + 1 for even T), spaced 1/T with k-th entry k/T, and the mask selects
exactly the bins with lo < k/T <= hi. -/
theorem freq_grid_spec (T : ℕ) (lo hi : ℚ) (hT : 1 ≤ T) :
    (ff T).length = (T + 3) / 2 ∧
      (∀ k, k < (ff T).length → (ff T).getD k 0 = (k : ℚ) / T) ∧
      selectedIdx T lo hi = (List.range ((ff T).length)).filter
        (fun (k : ℕ) => decide (lo < (k : ℚ) / T) && decide ((k : ℚ) / T ≤ hi)) :=
  ⟨ff_length T hT, fun k hk => ff_getD T k hk, selectedIdx_eq_filter T lo hi⟩

theorem freq_grid_spec_witness :
    1 ≤ 8 ∧ ((ff 8).length = (8 + 3) / 2 ∧
      (∀ k, k < (ff 8).length → (ff 8).getD k 0 = (k : ℚ) / 8) ∧
      selectedIdx 8 (1 / 4) (1 / 2) = (List.range ((ff 8).length)).filter
        (fun (k : ℕ) => decide ((1 / 4 : ℚ) < (k : ℚ) / 8) && decide ((k : ℚ) / 8 ≤ 1 / 2))) :=
  ⟨by norm_num, freq_grid_spec 8 (1 / 4) (1 / 2) (by norm_num)⟩

/-- Claim C4 counterexample: with band [0.6, 0.5] and T = 4 the mask selects
zero bins, and get_noise_fft returns successfully (the spectral average of
an empty selection, NaN in floating point) instead of raising any error. -/
theorem band_empty_no_error :
    selectedIdx 4 (3 / 5) (1 / 2) = [] ∧
      get_noise_fft 1 4 (fun _ _ => (1 : ℝ)) (3 / 5) (1 / 2) "logmexp" =
        Except.ok (fun _ => mean_psd [] "logmexp") := by
  have hsel : selectedIdx 4 (3 / 5) (1 / 2) = [] := by
    rw [selectedIdx_eq_filter, ff_length 4 (by norm_num)]
    norm_num [List.filter]
  refine ⟨hsel, ?_⟩
  rw [get_noise_fft, if_pos (ff_rfft_guard 4 (by norm_num) (by decide))]
  congr 1
  funext i
  rw [hsel]
  rfl

/-- Claim C4 amended statement: get_noise_fft performs no validation of the
frequency band; whenever the mask selects zero bins it silently returns the
averager applied to the empty selection at every pixel (NaN in IEEE floats)
rather than raising an InvalidParameter error. -/
theorem get_noise_fft_no_band_validation (N T : ℕ) (Y : ℕ → ℕ → ℝ) (lo hi : ℚ)
    (method : String) (hguard : (indMask T lo hi).length = rfftLen T)
    (hempty : selectedIdx T lo hi = []) :
    get_noise_fft N T Y lo hi method = Except.ok (fun _ => mean_psd [] method) := by
  unfold get_noise_fft
  rw [if_pos hguard, hempty]
  simp only [List.map_nil]

theorem get_noise_fft_no_band_validation_witness :
    ((indMask 4 (3 / 5) (1 / 2)).length = rfftLen 4 ∧
        selectedIdx 4 (3 / 5) (1 / 2) = []) ∧
      get_noise_fft 2 4 (fun _ _ => (7 : ℝ)) (3 / 5) (1 / 2) "mean" =
        Except.ok (fun _ => mean_psd [] "mean") := by
  have h1 : (indMask 4 (3 / 5) (1 / 2)).length = rfftLen 4 :=
    ff_rfft_guard 4 (by norm_num) (by decide)
  have h2 : selectedIdx 4 (3 / 5) (1 / 2) = [] := by
    rw [selectedIdx_eq_filter, ff_length 4 (by norm_num)]
    norm_num [List.filter]
  exact ⟨⟨h1, h2⟩, get_noise_fft_no_band_validation 2 4 _ _ _ "mean" h1 h2⟩

/-! Witnesses for the hypothesised claim theorems. -/

theorem pixel_blocks_cover_witness :
    1 ≤ 3 ∧ (coveredIndices 10 3 = List.range 10 ∧
      ∀ idx, idx < 10 → (coveredIndices 10 3).count idx = 1) :=
  ⟨by norm_num, pixel_blocks_cover 10 3 (by norm_num)⟩

theorem axcov_zero_lag_variance_witness :
    1 < ([0, 2] : List ℝ).length ∧
      (axcov [0, 2] 1).getD 1 0 =
        (∑ k in Finset.range ([0, 2] : List ℝ).length,
          (([0, 2] : List ℝ).getD k 0 - ([0, 2] : List ℝ).sum / ([0, 2] : List ℝ).length) ^ 2) /
          ([0, 2] : List ℝ).length :=
  ⟨by norm_num, axcov_zero_lag_variance [0, 2] 1 (by norm_num)⟩

theorem axcov_symmetric_witness :
    1 < ([0, 2] : List ℝ).length ∧
      ((axcov [0, 2] 1).length = 2 * 1 + 1 ∧
        ∀ k, k ≤ 1 → (axcov [0, 2] 1).getD (1 - k) 0 = (axcov [0, 2] 1).getD (1 + k) 0) :=
  ⟨by norm_num, axcov_symmetric [0, 2] 1 (by norm_num)⟩

theorem const_movie_noise_zero_witness :
    (2 ≤ 4 ∧ Even 4) ∧
      get_noise_fft 2 4 (fun _ _ => (5 : ℝ)) (1 / 4) (1 / 2) "median" =
        Except.ok (fun _ => (0 : ℝ)) :=
  ⟨⟨by norm_num, by decide⟩, const_movie_noise_zero 2 4 5 "median" (by norm_num) (by decide)⟩

theorem mean_psd_unknown_method_witness :
    ("logmexpp" ≠ "mean" ∧ "logmexpp" ≠ "median") ∧
      (mean_psd [1, 2] "logmexpp" = mean_psd [1, 2] "logmexp" ∧
        mean_psd [1, 2] "logmexpp" =
          Real.sqrt (expE (emean (([1, 2] : List ℝ).map (fun v => logE (v / 2)))))) :=
  ⟨⟨by decide, by decide⟩, mean_psd_unknown_method [1, 2] "logmexpp" (by decide) (by decide)⟩

theorem estimate_time_constant_two_pixel_witness :
    7 < 8 ∧ ∃ g, estimate_time_constant 2 8 (fun i k => (i + k : ℝ)) (fun _ => 1)
        (some 2) 5 false none = Except.ok g ∧ g.length = 2 :=
  ⟨by norm_num, estimate_time_constant_two_pixel 8 _ _ (by norm_num)⟩

/-! Claim C1: concrete evaluation of the serial estimator and the parallel
orchestrator on the three-pixel movie Y3 with group size 2, band [0, 0.5]
and method "mean".  The dispatched block [0, 2) receives the caller's
kwargs, while the remainder pixel 2 is processed by the call on source line
186 with the default band [0.25, 0.5] and method "logmexp", so its noise
value differs from the serial one. -/

lemma wroot_four : wroot 4 = -Complex.I := by
  rw [wroot,
    show (-(2 * (Real.pi : ℂ) * Complex.I) / (4 : ℕ)) = ((-(Real.pi / 2) : ℝ) : ℂ) * Complex.I
      by push_cast; ring,
    Complex.exp_mul_I, ← Complex.ofReal_cos, ← Complex.ofReal_sin]
  rw [Real.cos_neg, Real.sin_neg, Real.cos_pi_div_two, Real.sin_pi_div_two]
  push_cast
  ring

lemma dft_rowY_one : dft 4 (fun k => (rowY k : ℂ)) 1 = 2 - Complex.I := by
  rw [dft, wroot_four]
  rw [Finset.sum_range_succ, Finset.sum_range_succ, Finset.sum_range_succ,
    Finset.sum_range_succ, Finset.sum_range_zero]
  norm_num [rowY]
  ring

lemma dft_rowY_two : dft 4 (fun k => (rowY k : ℂ)) 2 = 1 := by
  rw [dft, wroot_four]
  rw [Finset.sum_range_succ, Finset.sum_range_succ, Finset.sum_range_succ,
    Finset.sum_range_succ, Finset.sum_range_zero]
  norm_num [rowY]

lemma psdRow_rowY_one : psdRow 4 rowY 1 = 5 / 2 := by
  rw [psdRow, rfftRow, show (fun k => ((rowY k : ℝ) : ℂ)) = fun k => (rowY k : ℂ) from rfl,
    dft_rowY_one]
  rw [if_neg (by norm_num), Complex.sq_abs]
  rw [show Complex.normSq (2 - Complex.I) = 5 by
    rw [Complex.normSq_apply]
    simp
    norm_num]
  norm_num

lemma psdRow_rowY_two : psdRow 4 rowY 2 = 1 / 2 := by
  rw [psdRow, rfftRow, show (fun k => ((rowY k : ℝ) : ℂ)) = fun k => (rowY k : ℂ) from rfl,
    dft_rowY_two]
  rw [if_neg (by norm_num), Complex.sq_abs]
  rw [show Complex.normSq 1 = 1 by simp]
  norm_num

lemma sel_full_band : selectedIdx 4 0 (1 / 2) = [1, 2] := by
  rw [selectedIdx_eq_filter, ff_length 4 (by norm_num)]
  norm_num [List.filter]

lemma sel_default_band : selectedIdx 4 (1 / 4) (1 / 2) = [2] := by
  rw [selectedIdx_eq_filter, ff_length 4 (by norm_num)]
  norm_num [List.filter]

lemma mean_psd_mean_val : mean_psd [5 / 2, 1 / 2] "mean" = Real.sqrt (3 / 4) := by
  rw [mean_psd, if_pos rfl]
  norm_num

lemma mean_psd_logmexp_single : mean_psd [1 / 2] "logmexp" = 1 / 2 := by
  rw [mean_psd, if_neg (by decide), if_neg (by decide)]
  rw [show ([1 / 2] : List ℝ).map (fun v => logE (v / 2)) =
      [((Real.log (1 / 4) : ℝ) : EReal)] by
    rw [List.map_cons, List.map_nil, show (1 / 2 : ℝ) / 2 = 1 / 4 by norm_num,
      logE_pos _ (by norm_num)]]
  rw [emean, List.sum_cons, List.sum_nil, add_zero, List.length_cons, List.length_nil]
  rw [show (((0 + 1 : ℕ) : ℝ))⁻¹ = (1 : ℝ) by norm_num]
  rw [← EReal.coe_mul, mul_one, expE_coe, Real.exp_log (by norm_num : (0 : ℝ) < 1 / 4)]
  rw [show (1 / 4 : ℝ) = (1 / 2) ^ 2 by norm_num, Real.sqrt_sq (by norm_num : (0 : ℝ) ≤ 1 / 2)]

lemma get_noise_fft_ok (N T : ℕ) (Y : ℕ → ℕ → ℝ) (lo hi : ℚ) (method : String)
    (hguard : (indMask T lo hi).length = rfftLen T) :
    get_noise_fft N T Y lo hi method = Except.ok
      (fun i => mean_psd ((selectedIdx T lo hi).map (fun k => psdRow T (Y i) k)) method) := by
  unfold get_noise_fft
  rw [if_pos hguard]

lemma fft_psd_parallel_ok (T : ℕ) (Y : ℕ → ℕ → ℝ) (buf : ℕ → ℝ) (i num : ℕ)
    (lo hi : ℚ) (method : String)
    (hguard : (indMask T lo hi).length = rfftLen T) :
    fft_psd_parallel T Y buf i num lo hi method = Except.ok
      (fun idx => if i ≤ idx ∧ idx < i + num then
        mean_psd ((selectedIdx T lo hi).map
          (fun k => psdRow T (Y (i + (idx - i))) k)) method
      else buf idx) := by
  unfold fft_psd_parallel
  rw [get_noise_fft_ok num T _ lo hi method hguard]

lemma serial_noise : get_noise_fft 3 4 Y3 0 (1 / 2) "mean" =
    Except.ok (fun _ => Real.sqrt (3 / 4)) := by
  rw [get_noise_fft_ok 3 4 Y3 0 (1 / 2) "mean" (ff_rfft_guard 4 (by norm_num) (by decide))]
  congr 1
  funext i
  rw [sel_full_band, List.map_cons, List.map_cons, List.map_nil,
    show Y3 i = rowY from rfl, psdRow_rowY_one, psdRow_rowY_two, mean_psd_mean_val]

lemma parallel_noise :
    (get_noise_fft_parallel 3 4 Y3 2 0 (1 / 2) "mean").map (fun f => f 2) =
      Except.ok ((1 : ℝ) / 2) := by
  have hg1 : (indMask 4 (0 : ℚ) (1 / 2)).length = rfftLen 4 :=
    ff_rfft_guard 4 (by norm_num) (by decide)
  have hg2 : (indMask 4 (1 / 4 : ℚ) (1 / 2)).length = rfftLen 4 :=
    ff_rfft_guard 4 (by norm_num) (by decide)
  unfold get_noise_fft_parallel
  rw [show pixel_groups 3 2 = [0] from by decide]
  simp only [applyBlocks]
  rw [fft_psd_parallel_ok 4 Y3 _ 0 2 0 (1 / 2) "mean" hg1]
  simp only [show (3 : ℕ) % 2 = 1 from rfl, show (3 : ℕ) - 1 = 2 from rfl,
    if_pos (by norm_num : 0 < 1)]
  rw [fft_psd_parallel_ok 4 Y3 _ 2 1 (1 / 4) (1 / 2) "logmexp" hg2]
  simp only [Except.map]
  rw [if_pos (by norm_num : 2 ≤ 2 ∧ 2 < 2 + 1)]
  rw [sel_default_band, List.map_cons, List.map_nil,
    show Y3 (2 + (2 - 2)) = rowY from rfl, psdRow_rowY_two, mean_psd_logmexp_single]

/-- Claim C1 failing input: on the movie Y3 (three identical pixels with
T = 4), group size 2, noise_range = [0, 0.5], noise_method = "mean", the
parallel estimator disagrees with the serial estimator at pixel 2, because
the remainder call on source line 186 forgets to forward the kwargs: the
serial value is sqrt(3/4) while the parallel remainder computes 1/2 with
the default band and method. -/
theorem parallel_remainder_drops_kwargs :
    (get_noise_fft_parallel 3 4 Y3 2 0 (1 / 2) "mean").map (fun f => f 2) ≠
      (get_noise_fft 3 4 Y3 0 (1 / 2) "mean").map (fun f => f 2) := by
  rw [parallel_noise, serial_noise]
  simp only [Except.map]
  intro h
  have h2 : (1 : ℝ) / 2 = Real.sqrt (3 / 4) := Except.ok.inj h
  have h3 := Real.sq_sqrt (by norm_num : (0 : ℝ) ≤ 3 / 4)
  rw [← h2] at h3
  norm_num at h3

end PreProcessing
